import Mathlib

/-!
Shallow embedding of `src/tools/line_replacer.c`, a command-line tool that
replaces one line of a text file in place.

File contents are byte lists (`List Nat`), the filesystem is a map from
filenames to optional contents together with a writability predicate, and the
C functions `replace_line` and `main` are modelled as pure functions on that
state.  The read loop (`fgets` into a capacity-doubling array of `strdup`ed
lines) is modelled with explicit fuel; one `fgets` call consumes at least one
byte, so fuel equal to the length of the remaining input is always enough.
-/

/-! ### Definitions: the embedded program and the specification predicates -/

/-- The byte value of the newline character. -/
def NL : Nat := 10

/-- The byte value of the NUL terminator. -/
def NUL : Nat := 0

/-- The constant `MAX_LINE_LENGTH` from the source: the size of the `fgets` buffer. -/
def MAX_LINE_LENGTH : Nat := 10000

/-- One call of `fgets(buffer, n+1, file)` on a stream holding the given
bytes: it reads at most `n` bytes (`n` = buffer size minus one, room for the
terminating NUL), stops after a newline, and returns the bytes read together
with the rest of the stream.  At end of file nothing is read. -/
def fgets : Nat → List Nat → List Nat × List Nat
  | _, [] => ([], [])
  | 0, b :: rest => ([], b :: rest)
  | n+1, b :: rest =>
    if b = NL then ([b], rest)
    else
      let p := fgets n rest
      (b :: p.1, p.2)

/-- Splitting off one line with an unbounded buffer: the specification's
notion of a line, a maximal run of bytes ending in (or, at end of file,
lacking) a newline. -/
def splitAtNL : List Nat → List Nat × List Nat
  | [] => ([], [])
  | b :: rest =>
    if b = NL then ([b], rest)
    else
      let p := splitAtNL rest
      (b :: p.1, p.2)

/-- The bytes `strdup` keeps from the `fgets` buffer: everything up to the
first NUL byte. -/
def cstr (l : List Nat) : List Nat := l.takeWhile (fun x => x ≠ NUL)

/-- The read loop of `replace_line` (lines 20-28 of the source), with the
dynamic array abstracted away: repeatedly `fgets` a chunk and store its
`strdup` copy.  `fuel` bounds the number of iterations; any fuel at least the
length of the input gives the full run. -/
def readLinesGo : Nat → List Nat → List (List Nat)
  | _, [] => []
  | 0, _ :: _ => []
  | fuel+1, b :: rest =>
    let p := fgets (MAX_LINE_LENGTH - 1) (b :: rest)
    cstr p.1 :: readLinesGo fuel p.2

/-- The sequence of lines the read phase of `replace_line` stores. -/
def readLines (content : List Nat) : List (List Nat) :=
  readLinesGo content.length content

/-- The specification's splitting of a file into lines: maximal runs ending
in a newline, the final one possibly lacking it. -/
def specLinesGo : Nat → List Nat → List (List Nat)
  | _, [] => []
  | 0, _ :: _ => []
  | fuel+1, b :: rest =>
    let p := splitAtNL (b :: rest)
    p.1 :: specLinesGo fuel p.2

/-- All lines of a file, in the specification's sense. -/
def specLines (content : List Nat) : List (List Nat) :=
  specLinesGo content.length content

/-- A file the reader represents faithfully: no NUL bytes, and every line
(in the specification's sense) fits in the `fgets` buffer. -/
def SpecWF (content : List Nat) : Prop :=
  NUL ∉ content ∧ ∀ l ∈ specLines content, l.length ≤ MAX_LINE_LENGTH - 1

/-- A chunk as stored by the read loop of a NUL-free file: nonempty,
NUL-free, with a newline at most as its last byte, and fitting the buffer. -/
def GoodChunk (c : List Nat) : Prop :=
  c ≠ [] ∧ NUL ∉ c ∧ NL ∉ c.dropLast ∧ c.length ≤ MAX_LINE_LENGTH - 1

/-- A sequence of chunks as the read loop produces them: every chunk good,
and every chunk except the last either newline-terminated or filling the
buffer completely. -/
def ChunkSeq : List (List Nat) → Prop
  | [] => True
  | c :: rest =>
    GoodChunk c ∧
      (rest = [] ∨ c.getLast? = some NL ∨ c.length = MAX_LINE_LENGTH - 1) ∧
      ChunkSeq rest

/-- The growable line array of the source: a capacity and the stored lines.
The C code keeps `lines`, `num_lines` and `capacity`; `num_lines` is the
length of the stored list. -/
structure LineBuf where
  capacity : Nat
  lines : List (List Nat)

/-- Appending one line to the array, doubling the capacity first when it is
full (lines 22-27 of the source). -/
def pushLine (buf : LineBuf) (l : List Nat) : LineBuf :=
  let buf1 := if buf.capacity ≤ buf.lines.length
    then { buf with capacity := buf.capacity * 2 } else buf
  { buf1 with lines := buf1.lines ++ [l] }

/-- The read loop of `replace_line` operating on the dynamic array, with
fuel as in `readLinesGo`. -/
def readLoopGo : Nat → LineBuf → List Nat → LineBuf
  | _, buf, [] => buf
  | 0, buf, _ :: _ => buf
  | fuel+1, buf, b :: rest =>
    let p := fgets (MAX_LINE_LENGTH - 1) (b :: rest)
    readLoopGo fuel (pushLine buf (cstr p.1)) p.2

/-- Reading a whole file as `replace_line` does, starting from the empty
array with capacity 100. -/
def readAllLines (content : List Nat) : LineBuf :=
  readLoopGo content.length { capacity := 100, lines := [] } content

/-- The filesystem: contents of existing files and which names may be opened
for writing. -/
structure FS where
  files : List Nat → Option (List Nat)
  writable : List Nat → Bool

/-- Opening with `fopen(name, "w")` followed by writing `content`: the named file now
holds exactly those bytes. -/
def writeFile (fs : FS) (name : List Nat) (content : List Nat) : FS :=
  { fs with files := fun n => if n = name then some content else fs.files n }

/-- The C function `replace_line(filename, line_num, new_content)` (lines
7-56 of the source), returning the exit status together with the resulting
filesystem.  Reading fails when the file does not exist; the stored lines are
the `strdup`ed `fgets` chunks; the range check `line_num > 0 && line_num <=
num_lines` guards the in-memory replacement by `sprintf("%s\n",
new_content)`; opening for writing fails when the name is not writable, and
otherwise all lines are written back. -/
def replace_line (fs : FS) (filename : List Nat) (line_num : Int)
    (new_content : List Nat) : Nat × FS :=
  match fs.files filename with
  | none => (1, fs)
  | some content =>
    let lines := (readAllLines content).lines
    let num_lines := lines.length
    if 0 < line_num ∧ line_num ≤ (num_lines : Int) then
      let newLines := lines.set (line_num - 1).toNat (cstr new_content ++ [NL])
      if fs.writable filename then
        (0, writeFile fs filename newLines.flatten)
      else
        (1, fs)
    else
      (1, fs)

/-- Whether a byte is decimal-digit text. -/
def isDigitB (b : Nat) : Bool := decide (48 ≤ b) && decide (b ≤ 57)

/-- Whether a byte is whitespace in the sense of `isspace` in the C locale. -/
def isSpaceB (b : Nat) : Bool := b == 32 || (decide (9 ≤ b) && decide (b ≤ 13))

/-- The digit-accumulating loop of `atoi` (overflow ignored: the inputs of
interest are small). -/
def atoiLoop : Int → List Nat → Int
  | acc, [] => acc
  | acc, b :: rest =>
    if isDigitB b then atoiLoop (acc * 10 + ((b - 48 : Nat) : Int)) rest
    else acc

/-- C `atoi`: skip leading whitespace, an optional sign, then digits; with
no digits the result is 0. -/
def atoi (s : List Nat) : Int :=
  match s.dropWhile isSpaceB with
  | [] => 0
  | b :: rest =>
    if b = 45 then - atoiLoop 0 rest
    else if b = 43 then atoiLoop 0 rest
    else atoiLoop 0 (b :: rest)

/-- The `main` function (lines 58-69 of the source): with exactly four
arguments (program name included) it calls `replace_line` on
`atoi(argv[2])`; otherwise it prints usage and exits 1. -/
def cMain (fs : FS) (argv : List (List Nat)) : Nat × FS :=
  match argv with
  | [_, filename, lineArg, newContent] =>
    replace_line fs filename (atoi lineArg) newContent
  | _ => (1, fs)

/-- A one-file filesystem with everything writable: fixture for witnesses. -/
def mkFS (name content : List Nat) : FS :=
  { files := fun n => if n = name then some content else none,
    writable := fun _ => true }

/-- The text after an optional leading sign. -/
def afterSign : List Nat → List Nat
  | [] => []
  | b :: rest => if b = 45 ∨ b = 43 then rest else b :: rest

/-- A non-numeric `<line_number>` argument: after leading whitespace and an
optional sign there is no digit to convert. -/
def NonNumericB (s : List Nat) : Bool :=
  match afterSign (s.dropWhile isSpaceB) with
  | [] => true
  | b :: _ => ! isDigitB b

/-- The one way a run of the program succeeds: exactly four arguments, a
readable file, an in-range line number, a writable destination. -/
def SuccessRun (fs : FS) (argv : List (List Nat)) : Prop :=
  ∃ p f lineArg t content, argv = [p, f, lineArg, t] ∧
    fs.files f = some content ∧
    0 < atoi lineArg ∧
    atoi lineArg ≤ ((readAllLines content).lines.length : Int) ∧
    fs.writable f = true

/-- The failure cases of a run: wrong argument count, unopenable source,
out-of-range line number, or unwritable destination. -/
def FailureRun (fs : FS) (argv : List (List Nat)) : Prop :=
  argv.length ≠ 4 ∨
  ∃ p f lineArg t, argv = [p, f, lineArg, t] ∧
    (fs.files f = none ∨
     (∃ content, fs.files f = some content ∧
        ¬(0 < atoi lineArg ∧
          atoi lineArg ≤ ((readAllLines content).lines.length : Int))) ∨
     (∃ content, fs.files f = some content ∧
        (0 < atoi lineArg ∧
          atoi lineArg ≤ ((readAllLines content).lines.length : Int)) ∧
        fs.writable f = false))

/-! ### Supporting lemmas -/

theorem fgets_append (n : Nat) (l : List Nat) :
    (fgets n l).1 ++ (fgets n l).2 = l := by
  induction l generalizing n with
  | nil => cases n <;> simp [fgets]
  | cons b rest ih =>
    cases n with
    | zero => simp [fgets]
    | succ m =>
      by_cases h : b = NL <;> simp [fgets, h, ih]

theorem fgets_fst_length (n : Nat) (l : List Nat) :
    (fgets n l).1.length ≤ n := by
  induction l generalizing n with
  | nil => cases n <;> simp [fgets]
  | cons b rest ih =>
    cases n with
    | zero => simp [fgets]
    | succ m =>
      by_cases h : b = NL <;> simp [fgets, h]
      exact ih m

theorem fgets_fst_ne_nil (n : Nat) (b : Nat) (rest : List Nat) :
    (fgets (n+1) (b :: rest)).1 ≠ [] := by
  by_cases h : b = NL <;> simp [fgets, h]

theorem fgets_nl_not_mem_dropLast (n : Nat) (l : List Nat) :
    NL ∉ (fgets n l).1.dropLast := by
  induction l generalizing n with
  | nil => cases n <;> simp [fgets]
  | cons b rest ih =>
    cases n with
    | zero => simp [fgets]
    | succ m =>
      by_cases h : b = NL
      · simp [fgets, h]
      · simp only [fgets, if_neg h]
        cases hp : (fgets m rest).1 with
        | nil => simp
        | cons c t =>
          have := ih m
          rw [hp] at this
          simp [List.dropLast_cons_of_ne_nil, h, this]
          intro hb
          exact h hb.symm

theorem fgets_snd_ne_nil (n : Nat) (l : List Nat) :
    (fgets n l).2 ≠ [] →
    (fgets n l).1.getLast? = some NL ∨ (fgets n l).1.length = n := by
  induction l generalizing n with
  | nil => cases n <;> simp [fgets]
  | cons b rest ih =>
    cases n with
    | zero => simp [fgets]
    | succ m =>
      by_cases h : b = NL
      · simp [fgets, h]
      · simp only [fgets, if_neg h]
        intro hne
        rcases ih m hne with hlast | hlen
        · left
          cases hp : (fgets m rest).1 with
          | nil => rw [hp] at hlast; simp at hlast
          | cons c t =>
            rw [hp] at hlast
            simpa [List.getLast?_cons_cons] using hlast
        · right
          simp [hlen]

/-- One `fgets` call consumes at least one byte from a nonempty stream. -/
theorem fgets_snd_length_lt (n : Nat) (b : Nat) (rest : List Nat) :
    (fgets (n+1) (b :: rest)).2.length ≤ rest.length := by
  have happ := fgets_append (n+1) (b :: rest)
  have hne := fgets_fst_ne_nil n b rest
  have : (fgets (n+1) (b :: rest)).1.length + (fgets (n+1) (b :: rest)).2.length
      = rest.length + 1 := by
    have := congrArg List.length happ
    simpa [List.length_append] using this
  have hpos : 1 ≤ (fgets (n+1) (b :: rest)).1.length :=
    Nat.one_le_iff_ne_zero.mpr (by simpa [List.length_eq_zero] using hne)
  omega

theorem splitAtNL_append (l : List Nat) :
    (splitAtNL l).1 ++ (splitAtNL l).2 = l := by
  induction l with
  | nil => simp [splitAtNL]
  | cons b rest ih =>
    by_cases h : b = NL <;> simp [splitAtNL, h, ih]

theorem splitAtNL_fst_ne_nil (b : Nat) (rest : List Nat) :
    (splitAtNL (b :: rest)).1 ≠ [] := by
  by_cases h : b = NL <;> simp [splitAtNL, h]

theorem splitAtNL_snd_length (b : Nat) (rest : List Nat) :
    (splitAtNL (b :: rest)).2.length ≤ rest.length := by
  have happ := splitAtNL_append (b :: rest)
  have hne := splitAtNL_fst_ne_nil b rest
  have : (splitAtNL (b :: rest)).1.length + (splitAtNL (b :: rest)).2.length
      = rest.length + 1 := by
    have := congrArg List.length happ
    simpa [List.length_append] using this
  have hpos : 1 ≤ (splitAtNL (b :: rest)).1.length :=
    Nat.one_le_iff_ne_zero.mpr (by simpa [List.length_eq_zero] using hne)
  omega

/-- With no newline in the stream, `splitAtNL` takes everything. -/
theorem splitAtNL_no_nl (l : List Nat) (h : NL ∉ l) : splitAtNL l = (l, []) := by
  induction l with
  | nil => simp [splitAtNL]
  | cons b rest ih =>
    simp only [List.mem_cons, not_or] at h
    have hb : b ≠ NL := fun hb => h.1 hb.symm
    simp [splitAtNL, hb, ih h.2]

/-- When the next specification line fits in the buffer, `fgets` reads
exactly that line. -/
theorem fgets_eq_splitAtNL (n : Nat) (l : List Nat)
    (h : (splitAtNL l).1.length ≤ n) : fgets n l = splitAtNL l := by
  induction l generalizing n with
  | nil => cases n <;> simp [fgets, splitAtNL]
  | cons b rest ih =>
    by_cases hb : b = NL
    · have h1 : (splitAtNL (b :: rest)).1.length = 1 := by simp [splitAtNL, hb]
      rw [h1] at h
      obtain ⟨m, rfl⟩ := Nat.exists_eq_add_of_le h
      simp [fgets, splitAtNL, hb, Nat.add_comm]
    · have h1 : (splitAtNL (b :: rest)).1.length
          = (splitAtNL rest).1.length + 1 := by simp [splitAtNL, hb]
      rw [h1] at h
      obtain ⟨m, hm⟩ : ∃ m, n = m + 1 := by
        cases n with
        | zero => omega
        | succ m => exact ⟨m, rfl⟩
      subst hm
      have hrest : (splitAtNL rest).1.length ≤ m := by omega
      simp [fgets, splitAtNL, hb, ih m hrest]

theorem readLinesGo_congr (f : Nat) :
    ∀ (g : Nat) (l : List Nat), l.length ≤ f → l.length ≤ g →
      readLinesGo f l = readLinesGo g l := by
  induction f with
  | zero =>
    intro g l hf _
    have : l = [] := List.length_eq_zero.mp (Nat.le_zero.mp hf)
    subst this
    cases g <;> simp [readLinesGo]
  | succ fm ih =>
    intro g l hf hg
    cases l with
    | nil => cases g <;> simp [readLinesGo]
    | cons b rest =>
      cases g with
      | zero => simp at hg
      | succ gm =>
        simp only [readLinesGo]
        have hlen := fgets_snd_length_lt (MAX_LINE_LENGTH - 2) b rest
        have hcap : MAX_LINE_LENGTH - 2 + 1 = MAX_LINE_LENGTH - 1 := by decide
        rw [hcap] at hlen
        simp only [List.length_cons] at hf hg
        have h1 : (fgets (MAX_LINE_LENGTH - 1) (b :: rest)).2.length ≤ fm := by omega
        have h2 : (fgets (MAX_LINE_LENGTH - 1) (b :: rest)).2.length ≤ gm := by omega
        rw [ih gm (fgets (MAX_LINE_LENGTH - 1) (b :: rest)).2 h1 h2]

theorem readLines_nil : readLines [] = [] := rfl

theorem readLines_cons (b : Nat) (rest : List Nat) :
    readLines (b :: rest) =
      cstr (fgets (MAX_LINE_LENGTH - 1) (b :: rest)).1
        :: readLines (fgets (MAX_LINE_LENGTH - 1) (b :: rest)).2 := by
  show readLinesGo (rest.length + 1) (b :: rest) = _
  simp only [readLinesGo]
  have hlen := fgets_snd_length_lt (MAX_LINE_LENGTH - 2) b rest
  have hcap : MAX_LINE_LENGTH - 2 + 1 = MAX_LINE_LENGTH - 1 := by decide
  rw [hcap] at hlen
  rw [readLinesGo_congr rest.length (fgets (MAX_LINE_LENGTH - 1) (b :: rest)).2.length
        (fgets (MAX_LINE_LENGTH - 1) (b :: rest)).2 hlen le_rfl]
  rfl

theorem specLinesGo_congr (f : Nat) :
    ∀ (g : Nat) (l : List Nat), l.length ≤ f → l.length ≤ g →
      specLinesGo f l = specLinesGo g l := by
  induction f with
  | zero =>
    intro g l hf _
    have : l = [] := List.length_eq_zero.mp (Nat.le_zero.mp hf)
    subst this
    cases g <;> simp [specLinesGo]
  | succ fm ih =>
    intro g l hf hg
    cases l with
    | nil => cases g <;> simp [specLinesGo]
    | cons b rest =>
      cases g with
      | zero => simp at hg
      | succ gm =>
        simp only [specLinesGo]
        have hlen := splitAtNL_snd_length b rest
        simp only [List.length_cons] at hf hg
        have h1 : (splitAtNL (b :: rest)).2.length ≤ fm := by omega
        have h2 : (splitAtNL (b :: rest)).2.length ≤ gm := by omega
        rw [ih gm (splitAtNL (b :: rest)).2 h1 h2]

theorem specLines_nil : specLines [] = [] := rfl

theorem specLines_cons (b : Nat) (rest : List Nat) :
    specLines (b :: rest) =
      (splitAtNL (b :: rest)).1 :: specLines (splitAtNL (b :: rest)).2 := by
  show specLinesGo (rest.length + 1) (b :: rest) = _
  simp only [specLinesGo]
  have hlen := splitAtNL_snd_length b rest
  rw [specLinesGo_congr rest.length (splitAtNL (b :: rest)).2.length
        (splitAtNL (b :: rest)).2 hlen le_rfl]
  rfl

/-- The copy `strdup` makes keeps everything when the buffer holds no NUL byte. -/
theorem cstr_of_not_mem (l : List Nat) (h : NUL ∉ l) : cstr l = l := by
  unfold cstr
  refine List.takeWhile_eq_self_iff.mpr ?_
  intro x hx
  simp only [decide_eq_true_eq]
  intro hxn
  exact h (hxn ▸ hx)

theorem readLines_eq_specLines_aux (n : Nat) :
    ∀ content : List Nat, content.length ≤ n → SpecWF content →
      readLines content = specLines content := by
  induction n with
  | zero =>
    intro content hlen _
    have : content = [] := List.length_eq_zero.mp (Nat.le_zero.mp hlen)
    subst this
    rfl
  | succ m ih =>
    intro content hlen hwf
    cases content with
    | nil => rfl
    | cons b rest =>
      have hspec := specLines_cons b rest
      have hmem : (splitAtNL (b :: rest)).1 ∈ specLines (b :: rest) := by
        rw [hspec]; exact List.mem_cons_self _ _
      have hfit : (splitAtNL (b :: rest)).1.length ≤ MAX_LINE_LENGTH - 1 :=
        hwf.2 _ hmem
      have hfg : fgets (MAX_LINE_LENGTH - 1) (b :: rest) = splitAtNL (b :: rest) :=
        fgets_eq_splitAtNL _ _ hfit
      have happ := splitAtNL_append (b :: rest)
      have hnul1 : NUL ∉ (splitAtNL (b :: rest)).1 := fun hx =>
        hwf.1 (happ ▸ List.mem_append_left _ hx)
      have hnul2 : NUL ∉ (splitAtNL (b :: rest)).2 := fun hx =>
        hwf.1 (happ ▸ List.mem_append_right _ hx)
      have hwf2 : SpecWF (splitAtNL (b :: rest)).2 := by
        refine ⟨hnul2, ?_⟩
        intro l hl
        refine hwf.2 l ?_
        rw [hspec]
        exact List.mem_cons_of_mem _ hl
      have hlen2 : (splitAtNL (b :: rest)).2.length ≤ m := by
        have := splitAtNL_snd_length b rest
        simp only [List.length_cons] at hlen
        omega
      rw [readLines_cons, hfg, cstr_of_not_mem _ hnul1, ih _ hlen2 hwf2, hspec]

/-- Under well-formedness the read phase splits exactly at newlines. -/
theorem readLines_eq_specLines (content : List Nat) (hwf : SpecWF content) :
    readLines content = specLines content :=
  readLines_eq_specLines_aux content.length content le_rfl hwf

theorem readLines_ne_nil (b : Nat) (rest : List Nat) :
    readLines (b :: rest) ≠ [] := by
  rw [readLines_cons]
  exact List.cons_ne_nil _ _

/-- Unfolding `readLines` on a nonempty file, stated without destructing the file. -/
theorem readLines_cons' (l : List Nat) (h : l ≠ []) :
    readLines l =
      cstr (fgets (MAX_LINE_LENGTH - 1) l).1
        :: readLines (fgets (MAX_LINE_LENGTH - 1) l).2 := by
  obtain ⟨b, rest, rfl⟩ := List.exists_cons_of_ne_nil h
  exact readLines_cons b rest

theorem readLines_chunkSeq_aux (n : Nat) :
    ∀ content : List Nat, content.length ≤ n → NUL ∉ content →
      ChunkSeq (readLines content) := by
  induction n with
  | zero =>
    intro content hlen _
    have : content = [] := List.length_eq_zero.mp (Nat.le_zero.mp hlen)
    subst this
    simp [readLines_nil, ChunkSeq]
  | succ m ih =>
    intro content hlen hnul
    cases content with
    | nil => simp [readLines_nil, ChunkSeq]
    | cons b rest =>
      rw [readLines_cons]
      have happ := fgets_append (MAX_LINE_LENGTH - 1) (b :: rest)
      have hnul1 : NUL ∉ (fgets (MAX_LINE_LENGTH - 1) (b :: rest)).1 := fun hx =>
        hnul (happ ▸ List.mem_append_left _ hx)
      have hnul2 : NUL ∉ (fgets (MAX_LINE_LENGTH - 1) (b :: rest)).2 := fun hx =>
        hnul (happ ▸ List.mem_append_right _ hx)
      have hcap : MAX_LINE_LENGTH - 2 + 1 = MAX_LINE_LENGTH - 1 := by decide
      have hne : (fgets (MAX_LINE_LENGTH - 1) (b :: rest)).1 ≠ [] := by
        rw [← hcap]; exact fgets_fst_ne_nil _ b rest
      have hgood : GoodChunk (cstr (fgets (MAX_LINE_LENGTH - 1) (b :: rest)).1) := by
        rw [cstr_of_not_mem _ hnul1]
        exact ⟨hne, hnul1, fgets_nl_not_mem_dropLast _ _, fgets_fst_length _ _⟩
      refine ⟨hgood, ?_, ?_⟩
      · cases hr : (fgets (MAX_LINE_LENGTH - 1) (b :: rest)).2 with
        | nil => left; exact readLines_nil
        | cons c t =>
          right
          rw [cstr_of_not_mem _ hnul1]
          exact fgets_snd_ne_nil _ _ (by rw [hr]; exact List.cons_ne_nil _ _)
      · refine ih _ ?_ hnul2
        have hlt : (fgets (MAX_LINE_LENGTH - 1) (b :: rest)).2.length ≤ rest.length := by
          rw [← hcap]; exact fgets_snd_length_lt _ b rest
        simp only [List.length_cons] at hlen
        omega

theorem readLines_chunkSeq (content : List Nat) (hnul : NUL ∉ content) :
    ChunkSeq (readLines content) :=
  readLines_chunkSeq_aux content.length content le_rfl hnul

/-- On a newline-terminated block that fits the buffer, `fgets` reads exactly that block. -/
theorem fgets_terminated (c : List Nat) :
    ∀ (n : Nat) (r : List Nat), NL ∉ c → c.length + 1 ≤ n →
      fgets n (c ++ NL :: r) = (c ++ [NL], r) := by
  induction c with
  | nil =>
    intro n r _ hn
    obtain ⟨m, rfl⟩ : ∃ m, n = m + 1 := by
      cases n with
      | zero => omega
      | succ m => exact ⟨m, rfl⟩
    simp [fgets]
  | cons b c' ih =>
    intro n r hmem hn
    simp only [List.mem_cons, not_or] at hmem
    have hb : b ≠ NL := fun hb => hmem.1 hb.symm
    obtain ⟨m, rfl⟩ : ∃ m, n = m + 1 := by
      cases n with
      | zero => omega
      | succ m => exact ⟨m, rfl⟩
    have : c'.length + 1 ≤ m := by
      simp only [List.length_cons] at hn
      omega
    simp [fgets, hb, ih m r hmem.2 this]

/-- On a newline-free stream that fits the buffer, `fgets` reads the whole stream. -/
theorem fgets_all (c : List Nat) :
    ∀ n : Nat, NL ∉ c → c.length ≤ n → fgets n c = (c, []) := by
  induction c with
  | nil => intro n _ _; cases n <;> simp [fgets]
  | cons b c' ih =>
    intro n hmem hn
    simp only [List.mem_cons, not_or] at hmem
    have hb : b ≠ NL := fun hb => hmem.1 hb.symm
    obtain ⟨m, rfl⟩ : ∃ m, n = m + 1 := by
      cases n with
      | zero => simp at hn
      | succ m => exact ⟨m, rfl⟩
    have : c'.length ≤ m := by
      simp only [List.length_cons] at hn
      omega
    simp [fgets, hb, ih m hmem.2 this]

/-- On a newline-free block that exactly fills the buffer, `fgets` reads exactly that block. -/
theorem fgets_cap (c : List Nat) :
    ∀ (n : Nat) (r : List Nat), NL ∉ c → c.length = n →
      fgets n (c ++ r) = (c, r) := by
  induction c with
  | nil =>
    intro n r _ hn
    subst hn
    cases r <;> simp [fgets]
  | cons b c' ih =>
    intro n r hmem hn
    simp only [List.mem_cons, not_or] at hmem
    have hb : b ≠ NL := fun hb => hmem.1 hb.symm
    subst hn
    simp [fgets, hb, ih c'.length r hmem.2 rfl]

/-- Key reproduction property: re-reading the concatenation of a valid chunk
sequence recovers exactly the same chunks. -/
theorem readLines_flatten (ls : List (List Nat)) (h : ChunkSeq ls) :
    readLines ls.flatten = ls := by
  induction ls with
  | nil => simp [readLines_nil]
  | cons c rest ih =>
    obtain ⟨⟨hne, hnul, hdrop, hlen⟩, hmid, htail⟩ := h
    have hfg : fgets (MAX_LINE_LENGTH - 1) (c ++ rest.flatten) = (c, rest.flatten) := by
      by_cases hlast : c.getLast? = some NL
      · obtain ⟨c0, hc0⟩ : ∃ c0, c = c0 ++ [NL] :=
          ⟨c.dropLast, (List.dropLast_append_getLast? NL hlast).symm⟩
        subst hc0
        have hnl0 : NL ∉ c0 := by
          rw [List.dropLast_concat] at hdrop
          exact hdrop
        have hl0 : c0.length + 1 ≤ MAX_LINE_LENGTH - 1 := by
          simp only [List.length_append, List.length_cons, List.length_nil] at hlen
          omega
        rw [List.append_assoc, List.singleton_append]
        exact fgets_terminated c0 _ _ hnl0 hl0
      · have hnlc : NL ∉ c := by
          intro hx
          have := List.dropLast_append_getLast hne
          rcases (List.mem_append.mp (this ▸ hx)) with h1 | h1
          · exact hdrop h1
          · simp only [List.mem_singleton] at h1
            exact hlast (h1 ▸ List.getLast?_eq_getLast_of_ne_nil hne)
        rcases hmid with hrest | hlast' | hcap
        · subst hrest
          simp only [List.flatten_nil, List.append_nil]
          exact fgets_all c _ hnlc hlen
        · exact absurd hlast' hlast
        · exact fgets_cap c _ _ hnlc hcap
    have hflne : c ++ rest.flatten ≠ [] := by
      intro hx
      exact hne (List.append_eq_nil.mp hx).1
    rw [show (c :: rest).flatten = c ++ rest.flatten from rfl,
        readLines_cons' _ hflne, hfg]
    simp only
    rw [cstr_of_not_mem _ hnul, ih htail]

/-- Replacing any chunk by a good newline-terminated chunk keeps the
sequence valid. -/
theorem chunkSeq_set (a : List Nat) (ha : GoodChunk a)
    (hlast : a.getLast? = some NL) :
    ∀ (ls : List (List Nat)), ChunkSeq ls → ∀ i, ChunkSeq (ls.set i a) := by
  intro ls
  induction ls with
  | nil => intro _ i; simp [List.set_nil, ChunkSeq]
  | cons c rest ih =>
    intro h i
    obtain ⟨hc, hmid, htail⟩ := h
    cases i with
    | zero =>
      exact ⟨ha, Or.inr (Or.inl hlast), htail⟩
    | succ j =>
      refine ⟨hc, ?_, ih htail j⟩
      rcases hmid with hrest | hother
      · subst hrest; left; rfl
      · right; exact hother

theorem pushLine_lines (buf : LineBuf) (l : List Nat) :
    (pushLine buf l).lines = buf.lines ++ [l] := by
  by_cases h : buf.capacity ≤ buf.lines.length <;> simp [pushLine, h]

/-- Capacity management never changes the stored sequence: the loop on the
dynamic array stores exactly the lines of `readLinesGo`, in order. -/
theorem readLoopGo_lines (fuel : Nat) :
    ∀ (buf : LineBuf) (l : List Nat),
      (readLoopGo fuel buf l).lines = buf.lines ++ readLinesGo fuel l := by
  induction fuel with
  | zero =>
    intro buf l
    cases l <;> simp [readLoopGo, readLinesGo]
  | succ fm ih =>
    intro buf l
    cases l with
    | nil => simp [readLoopGo, readLinesGo]
    | cons b rest =>
      simp only [readLoopGo, readLinesGo]
      rw [ih, pushLine_lines, List.append_assoc, List.singleton_append]

theorem readAllLines_lines (content : List Nat) :
    (readAllLines content).lines = readLines content := by
  show (readLoopGo content.length { capacity := 100, lines := [] } content).lines = _
  rw [readLoopGo_lines]
  simp [readLines]

theorem flatten_set (ls : List (List Nat)) (i : Nat) (a : List Nat)
    (h : i < ls.length) :
    (ls.set i a).flatten =
      (ls.take i).flatten ++ a ++ (ls.drop (i+1)).flatten := by
  rw [List.set_eq_take_cons_drop a h]
  simp [List.flatten_append, List.append_assoc]

theorem replace_line_no_file (fs : FS) (f t : List Nat) (k : Int)
    (h : fs.files f = none) : replace_line fs f k t = (1, fs) := by
  simp [replace_line, h]

theorem replace_line_out_of_range (fs : FS) (f t content : List Nat) (k : Int)
    (hf : fs.files f = some content)
    (hk : ¬(0 < k ∧ k ≤ ((readAllLines content).lines.length : Int))) :
    replace_line fs f k t = (1, fs) := by
  simp [replace_line, hf, hk]

theorem replace_line_not_writable (fs : FS) (f t content : List Nat) (k : Int)
    (hf : fs.files f = some content) (hw : fs.writable f = false) :
    replace_line fs f k t = (1, fs) := by
  by_cases hk : 0 < k ∧ k ≤ ((readAllLines content).lines.length : Int)
  · simp [replace_line, hf, hk, hw]
  · simp [replace_line, hf, hk]

theorem replace_line_success (fs : FS) (f t content : List Nat) (k : Int)
    (hf : fs.files f = some content) (hw : fs.writable f = true)
    (hk1 : 0 < k) (hk2 : k ≤ ((readAllLines content).lines.length : Int)) :
    replace_line fs f k t =
      (0, writeFile fs f
        (((readAllLines content).lines.set (k - 1).toNat
            (cstr t ++ [NL])).flatten)) := by
  simp [replace_line, hf, hk1, hk2, hw]

theorem writeFile_files_self (fs : FS) (name c : List Nat) :
    (writeFile fs name c).files name = some c := by
  simp [writeFile]

theorem writeFile_writable (fs : FS) (name c : List Nat) :
    (writeFile fs name c).writable = fs.writable := rfl

theorem writeFile_writeFile (fs : FS) (name c c' : List Nat) :
    writeFile (writeFile fs name c) name c' = writeFile fs name c' := by
  unfold writeFile
  congr 1
  funext n
  by_cases h : n = name <;> simp [h]

theorem specLines_cons' (l : List Nat) (h : l ≠ []) :
    specLines l = (splitAtNL l).1 :: specLines (splitAtNL l).2 := by
  obtain ⟨b, rest, rfl⟩ := List.exists_cons_of_ne_nil h
  exact specLines_cons b rest

theorem atoiLoop_nil (acc : Int) : atoiLoop acc [] = acc := rfl

theorem atoiLoop_not_digit (acc : Int) (b : Nat) (rest : List Nat)
    (h : isDigitB b = false) : atoiLoop acc (b :: rest) = acc := by
  simp [atoiLoop, h]

/-- A non-numeric argument converts to the fallback value zero. -/
theorem atoi_of_nonNumeric (s : List Nat) (h : NonNumericB s = true) :
    atoi s = 0 := by
  unfold NonNumericB at h
  unfold atoi
  cases hu : s.dropWhile isSpaceB with
  | nil => rfl
  | cons b rest =>
    rw [hu] at h
    by_cases h45 : b = 45
    · subst h45
      have ha : afterSign (45 :: rest) = rest := by simp [afterSign]
      rw [ha] at h
      cases rest with
      | nil => simp [atoiLoop]
      | cons c rest2 =>
        simp only [Bool.not_eq_true'] at h
        simp [atoiLoop_not_digit 0 c rest2 h]
    · by_cases h43 : b = 43
      · subst h43
        have ha : afterSign (43 :: rest) = rest := by simp [afterSign]
        rw [ha] at h
        cases rest with
        | nil => simp [atoiLoop]
        | cons c rest2 =>
          simp only [Bool.not_eq_true'] at h
          simp [atoiLoop_not_digit 0 c rest2 h]
      · have ha : afterSign (b :: rest) = b :: rest := by
          simp [afterSign, h45, h43]
        rw [ha] at h
        simp only [Bool.not_eq_true'] at h
        simp [h45, h43, atoiLoop_not_digit 0 b rest h]

/-! ### The claims: theorems, witnesses and counterexamples -/

/-- C2: for every file, if the requested line number is below 1 or above the
number of lines read, `replace_line` fails with the range error (exit status
1) and the filesystem — in particular the file on disk — is byte-identical
to its state before the call: no write is started on this path. -/
theorem C2_out_of_range_fails (fs : FS) (f t content : List Nat) (k : Int)
    (hf : fs.files f = some content)
    (hk : k < 1 ∨ ((readAllLines content).lines.length : Int) < k) :
    replace_line fs f k t = (1, fs) :=
  replace_line_out_of_range fs f t content k hf (by omega)

theorem C2_witness :
    replace_line (mkFS [102] [97, 10, 98, 10]) [102] 5 [88] =
      (1, mkFS [102] [97, 10, 98, 10]) :=
  C2_out_of_range_fails _ _ _ [97, 10, 98, 10] 5 (by decide) (Or.inr (by decide))

/-- C8: when the named file does not exist (opening for reading fails),
`replace_line` fails with exit status 1 and the filesystem is unchanged: no
file is created and no write of any kind occurs. -/
theorem C8_missing_file (fs : FS) (path t : List Nat) (k : Int)
    (h : fs.files path = none) :
    replace_line fs path k t = (1, fs) :=
  replace_line_no_file fs path t k h

theorem C8_witness :
    replace_line (mkFS [102] [97]) [103] 7 [88] = (1, mkFS [102] [97]) :=
  C8_missing_file _ _ _ _ (by decide)

/-- C10: for an empty input file no line is read, so the valid range
[1, totalLines] is empty and `replace_line` fails with the range error for
every requested index, leaving the filesystem unchanged. -/
theorem C10_empty_file_always_fails (fs : FS) (f t : List Nat) (k : Int)
    (hf : fs.files f = some []) :
    replace_line fs f k t = (1, fs) := by
  apply replace_line_out_of_range fs f t [] k hf
  rintro ⟨h1, h2⟩
  rw [show (readAllLines ([] : List Nat)).lines = [] from rfl] at h2
  simp only [List.length_nil, Nat.cast_zero] at h2
  omega

theorem C10_witness :
    replace_line (mkFS [102] []) [102] 1 [88] = (1, mkFS [102] []) :=
  C10_empty_file_always_fails _ _ _ 1 (by decide)

/-- C6: a non-numeric `<line_number>` argument parses to the fallback value
zero, which then fails the range check like any other out-of-range index:
the run is indistinguishable from an explicit line number 0 and ends with
the range error (exit status 1, file untouched), never a distinct
invalid-number error. -/
theorem C6_nonnumeric_range_error (fs : FS) (p f s t content : List Nat)
    (hs : NonNumericB s = true) (hf : fs.files f = some content) :
    atoi s = 0 ∧
    cMain fs [p, f, s, t] = replace_line fs f 0 t ∧
    cMain fs [p, f, s, t] = (1, fs) := by
  have h0 : atoi s = 0 := atoi_of_nonNumeric s hs
  have hm : cMain fs [p, f, s, t] = replace_line fs f (atoi s) t := rfl
  have hrange : replace_line fs f 0 t = (1, fs) :=
    replace_line_out_of_range fs f t content 0 hf (fun h => lt_irrefl 0 h.1)
  exact ⟨h0, by rw [hm, h0], by rw [hm, h0, hrange]⟩

theorem C6_witness :
    atoi [97] = 0 ∧
    cMain (mkFS [102] [98, 10]) [[112], [102], [97], [88]] =
      replace_line (mkFS [102] [98, 10]) [102] 0 [88] ∧
    cMain (mkFS [102] [98, 10]) [[112], [102], [97], [88]] =
      (1, mkFS [102] [98, 10]) :=
  C6_nonnumeric_range_error _ _ _ _ _ [98, 10] (by decide) (by decide)

/-- C1 is false as stated: for the file "\0\nb\n" (two lines in the
specification's sense) replacing line 2 with "X" must, per the claim, leave
line 1 byte-identical, yielding "\0\nX\n"; the program instead stores line 1
as the empty string (`strdup` stops at the NUL byte) and writes back "X\n". -/
theorem C1_counterexample :
    (replace_line (mkFS [102] [0, 10, 98, 10]) [102] 2 [88]).2.files [102] =
      some [88, 10] ∧
    some [88, 10] ≠ some ([0, 10] ++ ([88] ++ [10])) :=
  ⟨by decide, by decide⟩

/-- C1 (amended): for every file containing no NUL byte and whose lines all
fit the `fgets` buffer (at most `MAX_LINE_LENGTH - 1` bytes including the
newline), a NUL-free replacement text, a writable destination and
1 ≤ k ≤ N, the replacement succeeds and the resulting file is lines
1..k-1, then `newContent ++ "\n"`, then lines k+1..N, all byte-identical to
the original and in the original order. -/
theorem C1_replace_line_wellformed (fs : FS) (f t content : List Nat) (k : Nat)
    (hf : fs.files f = some content) (hw : fs.writable f = true)
    (hwf : SpecWF content) (ht : NUL ∉ t)
    (hk1 : 1 ≤ k) (hk2 : k ≤ (specLines content).length) :
    (replace_line fs f (k : Int) t).1 = 0 ∧
    (replace_line fs f (k : Int) t).2.files f =
      some (((specLines content).take (k - 1)).flatten ++ (t ++ [NL]) ++
        ((specLines content).drop k).flatten) := by
  have hlines : (readAllLines content).lines = specLines content := by
    rw [readAllLines_lines]
    exact readLines_eq_specLines content hwf
  have hk1' : (0 : Int) < (k : Int) := by exact_mod_cast hk1
  have hk2' : (k : Int) ≤ ((readAllLines content).lines.length : Int) := by
    rw [hlines]
    exact_mod_cast hk2
  rw [replace_line_success fs f t content (k : Int) hf hw hk1' hk2']
  refine ⟨rfl, ?_⟩
  rw [writeFile_files_self]
  have hidx : ((k : Int) - 1).toNat = k - 1 := by omega
  have hlt : k - 1 < (specLines content).length := by omega
  rw [hidx, hlines, cstr_of_not_mem t ht, flatten_set _ _ _ hlt,
    show k - 1 + 1 = k from by omega]

theorem C1_witness :
    (replace_line (mkFS [102] [97, 10, 98, 10]) [102] ((2 : Nat) : Int) [88]).1 = 0 ∧
    (replace_line (mkFS [102] [97, 10, 98, 10]) [102] ((2 : Nat) : Int) [88]).2.files [102] =
      some (((specLines [97, 10, 98, 10]).take (2 - 1)).flatten ++ ([88] ++ [NL]) ++
        ((specLines [97, 10, 98, 10]).drop 2).flatten) :=
  C1_replace_line_wellformed _ _ _ _ 2 (by decide) (by decide)
    ⟨by decide, by decide⟩ (by decide) (by decide) (by decide)

/-- C3 is false as stated: a 10000-byte file consisting of a single
newline-free line does not fit the `fgets` buffer, so the read phase splits
it into two stored lines (9999 bytes, then 1 byte) although the file has
exactly one maximal newline-delimited line. -/
theorem C3_counterexample :
    readLines (List.replicate MAX_LINE_LENGTH 97) ≠
      specLines (List.replicate MAX_LINE_LENGTH 97) := by
  have hnl : NL ∉ List.replicate MAX_LINE_LENGTH 97 := fun h =>
    absurd (List.eq_of_mem_replicate h) (by decide)
  have hnl9 : NL ∉ List.replicate 9999 97 := fun h =>
    absurd (List.eq_of_mem_replicate h) (by decide)
  have hlen : (List.replicate MAX_LINE_LENGTH 97).length = MAX_LINE_LENGTH :=
    List.length_replicate _ _
  have hne : List.replicate MAX_LINE_LENGTH 97 ≠ [] := by
    intro h
    rw [h] at hlen
    exact absurd hlen (by decide)
  have hc : List.replicate MAX_LINE_LENGTH 97 = List.replicate 9999 97 ++ [97] := by
    rw [show MAX_LINE_LENGTH = 9999 + 1 from by decide, List.replicate_succ']
  have hspec : specLines (List.replicate MAX_LINE_LENGTH 97)
      = [List.replicate MAX_LINE_LENGTH 97] := by
    rw [specLines_cons' _ hne, splitAtNL_no_nl _ hnl]
    simp [specLines_nil]
  have hfg : fgets (MAX_LINE_LENGTH - 1) (List.replicate MAX_LINE_LENGTH 97)
      = (List.replicate 9999 97, [97]) := by
    rw [hc]
    exact fgets_cap _ _ _ hnl9 (by rw [List.length_replicate]; decide)
  have hread : readLines (List.replicate MAX_LINE_LENGTH 97)
      = [List.replicate 9999 97, [97]] := by
    rw [readLines_cons' _ hne, hfg]
    have h1 : cstr (List.replicate 9999 97) = List.replicate 9999 97 :=
      cstr_of_not_mem _ (fun h => absurd (List.eq_of_mem_replicate h) (by decide))
    simp only
    rw [h1, show readLines [97] = [[97]] from by decide]
  rw [hread, hspec]
  intro h
  have := congrArg List.length h
  simp only [List.length_cons, List.length_nil] at this
  omega

/-- C3 (amended): for every file containing no NUL byte and whose maximal
newline-delimited lines each fit the `fgets` buffer (at most
`MAX_LINE_LENGTH - 1` bytes including the newline), the read phase splits
exactly at newline characters: the stored lines are precisely the maximal
newline-terminated runs (the final one possibly lacking the newline), each
retaining its trailing newline as read, and `totalLines` is their number. -/
theorem C3_read_phase_splits (content : List Nat) (hwf : SpecWF content) :
    readLines content = specLines content ∧
    (readAllLines content).lines = specLines content ∧
    (readAllLines content).lines.length = (specLines content).length := by
  have h := readLines_eq_specLines content hwf
  have h2 : (readAllLines content).lines = specLines content := by
    rw [readAllLines_lines]
    exact h
  exact ⟨h, h2, by rw [h2]⟩

theorem C3_witness :
    readLines [97, 10, 98] = specLines [97, 10, 98] ∧
    (readAllLines [97, 10, 98]).lines = specLines [97, 10, 98] ∧
    (readAllLines [97, 10, 98]).lines.length = (specLines [97, 10, 98]).length :=
  C3_read_phase_splits [97, 10, 98] ⟨by decide, by decide⟩

/-- C9 is false as stated: for the file "c\0\n" the read phase stores one
line, but that stored line is "c" — not the file's first (and only)
newline-delimited line "c\0\n" — because `strdup` truncates at the NUL. -/
theorem C9_counterexample :
    (readAllLines [99, 0, 10]).lines ≠ specLines [99, 0, 10] := by decide

/-- C9 (amended): for every file with no NUL byte and all lines fitting the
`fgets` buffer, and for ANY initial capacity of the dynamic array, the read
loop neither drops nor duplicates a line across capacity growth: the stored
sequence is exactly the file's newline-delimited lines, in order, and its
length is their number. -/
theorem C9_stored_lines_faithful (content : List Nat) (cap0 : Nat)
    (hwf : SpecWF content) :
    (readLoopGo content.length { capacity := cap0, lines := [] } content).lines
      = specLines content ∧
    (readAllLines content).lines.length = (specLines content).length := by
  have h2 := readLines_eq_specLines content hwf
  have h1 : (readLoopGo content.length
      { capacity := cap0, lines := [] } content).lines = readLines content := by
    rw [readLoopGo_lines]
    simp [readLines]
  refine ⟨by rw [h1, h2], ?_⟩
  rw [readAllLines_lines, h2]

theorem C9_witness :
    (readLoopGo ([97, 10, 98, 10] : List Nat).length
        { capacity := 1, lines := [] } [97, 10, 98, 10]).lines
      = specLines [97, 10, 98, 10] ∧
    (readAllLines [97, 10, 98, 10]).lines.length
      = (specLines [97, 10, 98, 10]).length :=
  C9_stored_lines_faithful [97, 10, 98, 10] 1 ⟨by decide, by decide⟩

/-- C5: when the last line of the file as read lacks a trailing newline
(the file does not end in a newline), replacing that final line still writes
`newContent ++ "\n"`: the result is the earlier lines unchanged followed by
the newline-terminated replacement, so the resulting file always ends with a
newline.  In particular "a\nb" with line 2 replaced by "Y" becomes
"a\nY\n". -/
theorem C5_final_line_newline_appended (fs : FS) (f t content : List Nat)
    (hf : fs.files f = some content) (hw : fs.writable f = true)
    (ht : NUL ∉ t) (hc0 : content ≠ [])
    (_hlast : content.getLast? ≠ some NL) :
    (replace_line fs f (((readAllLines content).lines.length : Nat) : Int) t).1
      = 0 ∧
    (replace_line fs f (((readAllLines content).lines.length : Nat) : Int) t).2.files f
      = some (((readAllLines content).lines.dropLast).flatten ++ (t ++ [NL])) ∧
    (((readAllLines content).lines.dropLast).flatten ++ (t ++ [NL])).getLast?
      = some NL := by
  have hne : (readAllLines content).lines ≠ [] := by
    rw [readAllLines_lines]
    obtain ⟨b, rest, rfl⟩ := List.exists_cons_of_ne_nil hc0
    exact readLines_ne_nil b rest
  have hpos : 0 < (readAllLines content).lines.length := List.length_pos.mpr hne
  have hk1 : (0 : Int) < ((readAllLines content).lines.length : Int) := by
    exact_mod_cast hpos
  refine ?_
  rw [replace_line_success fs f t content _ hf hw hk1 le_rfl]
  refine ⟨rfl, ?_, ?_⟩
  · rw [writeFile_files_self]
    have hidx : ((((readAllLines content).lines.length : Nat) : Int) - 1).toNat
        = (readAllLines content).lines.length - 1 := by omega
    have hlt : (readAllLines content).lines.length - 1
        < (readAllLines content).lines.length := by omega
    rw [hidx, cstr_of_not_mem t ht, flatten_set _ _ _ hlt,
      show (readAllLines content).lines.length - 1 + 1
        = (readAllLines content).lines.length from by omega,
      List.drop_length, ← List.dropLast_eq_take]
    simp
  · rw [← List.append_assoc, List.getLast?_concat]

theorem C5_witness :
    (replace_line (mkFS [102] [97, 10, 98]) [102]
        (((readAllLines [97, 10, 98]).lines.length : Nat) : Int) [89]).1 = 0 ∧
    (replace_line (mkFS [102] [97, 10, 98]) [102]
        (((readAllLines [97, 10, 98]).lines.length : Nat) : Int) [89]).2.files [102]
      = some (((readAllLines [97, 10, 98]).lines.dropLast).flatten ++ ([89] ++ [NL])) ∧
    (((readAllLines [97, 10, 98]).lines.dropLast).flatten ++ ([89] ++ [NL])).getLast?
      = some NL ∧
    (replace_line (mkFS [102] [97, 10, 98]) [102] 2 [89]).2.files [102]
      = some [97, 10, 89, 10] := by
  have h := C5_final_line_newline_appended (mkFS [102] [97, 10, 98]) [102] [89]
    [97, 10, 98] (by decide) (by decide) (by decide) (by decide) (by decide)
  exact ⟨h.1, h.2.1, h.2.2, by decide⟩

/-- C4 is false as stated: with newContent "x\ny" (an embedded newline) on
the one-line file "a\n", the first call writes "x\ny\n" and the second call,
which now reads two lines and replaces only the first, writes "x\ny\ny\n" —
the two results differ, so the operation is not idempotent for newContent
with embedded newlines. -/
theorem C4_counterexample :
    (replace_line (replace_line (mkFS [102] [97, 10]) [102] 1
        [120, 10, 121]).2 [102] 1 [120, 10, 121]).2.files [102] ≠
      (replace_line (mkFS [102] [97, 10]) [102] 1 [120, 10, 121]).2.files [102] := by
  decide

/-- C4 (amended): for every file with no NUL bytes and every newContent
that is NUL-free, contains no embedded newline, and fits the write of one
buffered line (at most `MAX_LINE_LENGTH - 2` bytes), calling `replace_line`
twice with the same arguments is idempotent: the second call returns the
same exit status and the same filesystem as the first. -/
theorem C4_idempotent_newline_free (fs : FS) (f t content : List Nat) (k : Int)
    (hf : fs.files f = some content) (hc : NUL ∉ content)
    (ht0 : NUL ∉ t) (htn : NL ∉ t) (htl : t.length ≤ MAX_LINE_LENGTH - 2) :
    replace_line (replace_line fs f k t).2 f k t = replace_line fs f k t := by
  by_cases hk : 0 < k ∧ k ≤ ((readAllLines content).lines.length : Int)
  case neg =>
    rw [replace_line_out_of_range fs f t content k hf hk]
    exact replace_line_out_of_range fs f t content k hf hk
  case pos =>
    obtain ⟨hk1, hk2⟩ := hk
    cases hw : fs.writable f with
    | false =>
      rw [replace_line_not_writable fs f t content k hf hw]
      exact replace_line_not_writable fs f t content k hf hw
    | true =>
      have hcstr : cstr t = t := cstr_of_not_mem t ht0
      rw [replace_line_success fs f t content k hf hw hk1 hk2, hcstr]
      have hM : 2 ≤ MAX_LINE_LENGTH := by decide
      have hga : GoodChunk (t ++ [NL]) := by
        refine ⟨by simp, ?_, ?_, ?_⟩
        · intro hx
          rcases List.mem_append.mp hx with h1 | h1
          · exact ht0 h1
          · have : NUL = NL := by simpa using h1
            exact absurd this (by decide)
        · rw [List.dropLast_concat]
          exact htn
        · simp only [List.length_append, List.length_cons, List.length_nil]
          omega
      have hlast : (t ++ [NL]).getLast? = some NL := List.getLast?_concat _
      have hcs : ChunkSeq (readLines content) := readLines_chunkSeq content hc
      have hset : ChunkSeq ((readLines content).set (k - 1).toNat (t ++ [NL])) :=
        chunkSeq_set _ hga hlast _ hcs _
      have hcount : (readAllLines
          (((readAllLines content).lines.set (k - 1).toNat (t ++ [NL])).flatten)).lines
          = (readAllLines content).lines.set (k - 1).toNat (t ++ [NL]) := by
        rw [readAllLines_lines, readAllLines_lines]
        exact readLines_flatten _ hset
      have hw2 : (writeFile fs f
          (((readAllLines content).lines.set (k - 1).toNat (t ++ [NL])).flatten)).writable f
          = true := by
        rw [writeFile_writable]
        exact hw
      have hk2' : k ≤ ((readAllLines
          (((readAllLines content).lines.set (k - 1).toNat (t ++ [NL])).flatten)).lines.length
            : Int) := by
        rw [hcount, List.length_set]
        exact hk2
      rw [replace_line_success _ f t _ k (writeFile_files_self fs f _) hw2 hk1 hk2',
        hcstr, hcount, List.set_set, writeFile_writeFile]

theorem C4_witness :
    replace_line (replace_line (mkFS [102] [97, 10]) [102] 1 [120]).2
        [102] 1 [120] =
      replace_line (mkFS [102] [97, 10]) [102] 1 [120] :=
  C4_idempotent_newline_free (mkFS [102] [97, 10]) [102] [120] [97, 10] 1
    (by decide) (by decide) (by decide) (by decide) (by decide)

/-- C7: the process exit status is 0 exactly when the replacement succeeded
(four arguments, readable source, line number in range, writable
destination) and 1 exactly on the failures: wrong argument count, source
unopenable for reading, line number out of range, or destination unopenable
for writing. -/
theorem C7_exit_status (fs : FS) (argv : List (List Nat)) :
    ((cMain fs argv).1 = 0 ↔ SuccessRun fs argv) ∧
    ((cMain fs argv).1 = 1 ↔ FailureRun fs argv) := by
  rcases argv with _ | ⟨p, _ | ⟨f, _ | ⟨l, _ | ⟨t, _ | ⟨e, rest⟩⟩⟩⟩⟩
  · exact ⟨by simp [cMain, SuccessRun], by simp [cMain, FailureRun]⟩
  · exact ⟨by simp [cMain, SuccessRun], by simp [cMain, FailureRun]⟩
  · exact ⟨by simp [cMain, SuccessRun], by simp [cMain, FailureRun]⟩
  · exact ⟨by simp [cMain, SuccessRun], by simp [cMain, FailureRun]⟩
  case cons.cons.cons.cons.cons =>
    refine ⟨?_, ?_⟩
    · simp [cMain, SuccessRun]
    · simp only [cMain]
      constructor
      · intro _
        left
        simp [FailureRun]
      · intro _
        trivial
  case cons.cons.cons.cons.nil =>
    have hm : cMain fs [p, f, l, t] = replace_line fs f (atoi l) t := rfl
    cases hfile : fs.files f with
    | none =>
      rw [hm, replace_line_no_file fs f t (atoi l) hfile]
      constructor
      · constructor
        · intro h
          simp at h
        · rintro ⟨p', f', l', t', c', heq, hsome, -⟩
          simp only [List.cons.injEq, and_true] at heq
          obtain ⟨-, hf', -, -⟩ := heq
          rw [← hf'] at hsome
          rw [hfile] at hsome
          exact absurd hsome (by simp)
      · constructor
        · intro _
          exact Or.inr ⟨p, f, l, t, rfl, Or.inl hfile⟩
        · intro _
          rfl
    | some content =>
      by_cases hrange : 0 < atoi l ∧
          atoi l ≤ ((readAllLines content).lines.length : Int)
      · cases hw : fs.writable f with
        | true =>
          rw [hm, replace_line_success fs f t content (atoi l) hfile hw
            hrange.1 hrange.2]
          constructor
          · constructor
            · intro _
              exact ⟨p, f, l, t, content, rfl, hfile, hrange.1, hrange.2, hw⟩
            · intro _
              rfl
          · constructor
            · intro h
              simp at h
            · rintro (hlen | ⟨p', f', l', t', heq, hcases⟩)
              · exact absurd rfl hlen
              · simp only [List.cons.injEq, and_true] at heq
                obtain ⟨-, hf', hl', -⟩ := heq
                rw [← hf', ← hl'] at hcases
                rcases hcases with hnone | ⟨c', hsome, hnr⟩ | ⟨c', hsome, -, hwf⟩
                · rw [hfile] at hnone
                  exact absurd hnone (by simp)
                · rw [hfile] at hsome
                  obtain rfl : content = c' := by
                    exact Option.some.inj hsome
                  exact absurd hrange hnr
                · rw [hfile] at hsome
                  obtain rfl : content = c' := by
                    exact Option.some.inj hsome
                  rw [hw] at hwf
                  exact absurd hwf (by decide)
        | false =>
          rw [hm, replace_line_not_writable fs f t content (atoi l) hfile hw]
          constructor
          · constructor
            · intro h
              simp at h
            · rintro ⟨p', f', l', t', c', heq, hsome, -, -, hwt⟩
              simp only [List.cons.injEq, and_true] at heq
              obtain ⟨-, hf', -, -⟩ := heq
              rw [← hf'] at hwt
              rw [hw] at hwt
              exact absurd hwt (by decide)
          · constructor
            · intro _
              exact Or.inr ⟨p, f, l, t, rfl,
                Or.inr (Or.inr ⟨content, hfile, hrange, hw⟩)⟩
            · intro _
              rfl
      · rw [hm, replace_line_out_of_range fs f t content (atoi l) hfile hrange]
        constructor
        · constructor
          · intro h
            simp at h
          · rintro ⟨p', f', l', t', c', heq, hsome, hr1, hr2, -⟩
            simp only [List.cons.injEq, and_true] at heq
            obtain ⟨-, hf', hl', -⟩ := heq
            rw [← hf'] at hsome
            rw [hfile] at hsome
            obtain rfl : content = c' := Option.some.inj hsome
            rw [← hl'] at hr1 hr2
            exact absurd ⟨hr1, hr2⟩ hrange
        · constructor
          · intro _
            exact Or.inr ⟨p, f, l, t, rfl,
              Or.inr (Or.inl ⟨content, hfile, hrange⟩)⟩
          · intro _
            rfl
